import Mathlib

/-!
Shallow embedding of the Wordle greedy-solver program (`src/main.cpp`) and
verification of its specification.

Modelling conventions:
* `Letter` is `Int` (the source's `int32_t`); the sentinel `kUnknownLetter` is `-1`.
* `LetterField` is `Nat` used as a bitset (the source's `uint32_t`); all letters that
  occur in well-formed words lie in `[0, 26)`, so every bitset value stays below
  `2 ^ 26` and the `Nat` model agrees exactly with 32-bit unsigned arithmetic.
* `Word` is `Fin 5 → Letter` (the source's `std::array<Letter, 5>`).
* Loops over the five positions become folds over the explicit list `positions`.
-/

def kNumLetters : Nat := 5

abbrev Letter := Int

abbrev LetterField := Nat

def kUnknownLetter : Letter := -1

abbrev Pos := Fin 5

abbrev Word := Pos → Letter

/-- The bit `1 << letter` used throughout the source for bitset membership. -/
def bitOf (l : Letter) : LetterField := 1 <<< l.toNat

/-- The five positions `i = 0, 1, 2, 3, 4` of every loop `for i < kNumLetters`. -/
def positions : List Pos := [0, 1, 2, 3, 4]

/-- Accumulate `acc |= f k` over a list, starting from `0`. -/
def orMask (f : Pos → LetterField) (L : List Pos) : LetterField :=
  L.foldl (fun acc k => acc ||| f k) 0

/-- The bitset of letters appearing in a word (the constructor's `answer_bits_`
loop and the `in_word` accumulator of `Clues::matches`). -/
def wordBits (w : Word) : LetterField := orMask (fun i => bitOf (w i)) positions

/-- The protected state of class `Clues`: `match_`, `wrong_`, `in_answer_`. -/
structure Clues where
  match_ : Pos → Letter
  wrong_ : Pos → LetterField
  in_answer_ : LetterField

/-- The `Clues` constructor: `match_` filled with `kUnknownLetter`, `wrong_`
filled with `0`, `in_answer_ = 0`. -/
def Clues.init : Clues :=
  { match_ := fun _ => kUnknownLetter, wrong_ := fun _ => 0, in_answer_ := 0 }

/-- The position loop of `Clues::matches`, carrying the `in_word` accumulator;
returning `false` models the early `return false` statements, and the final
case models the `(in_answer_ & in_word) != in_answer_` check after the loop. -/
def matchesGo (c : Clues) (word : Word) : List Pos → LetterField → Bool
  | [], in_word => decide ((c.in_answer_ &&& in_word) = c.in_answer_)
  | i :: rest, in_word =>
    let letter := word i
    let correct_letter := c.match_ i
    if correct_letter ≠ kUnknownLetter ∧ correct_letter ≠ letter then false
    else
      let letter_bit := bitOf letter
      if letter_bit &&& c.wrong_ i ≠ 0 then false
      else matchesGo c word rest (in_word ||| letter_bit)

/-- `Clues::matches` (src/main.cpp lines 52-75). -/
def Clues.matches (c : Clues) (word : Word) : Bool :=
  matchesGo c word positions 0

/-- Class `WorldleGame` (the name keeps the source's spelling): a `Clues`
sub-object plus the hidden `answer_` and its letter bitset `answer_bits_`. -/
structure WorldleGame where
  clues : Clues
  answer_ : Word
  answer_bits_ : LetterField

/-- The `WorldleGame` constructor: fresh `Clues`, the given answer, and
`answer_bits_` accumulated by `answer_bits_ |= 1 << l` over the answer. -/
def WorldleGame.mk' (answer : Word) : WorldleGame :=
  { clues := Clues.init, answer_ := answer, answer_bits_ := wordBits answer }

/-- One iteration of the position loop of `WorldleGame::addGuess`
(src/main.cpp lines 92-112). -/
def addGuessStep (answer : Word) (answer_bits : LetterField) (guess : Word)
    (c : Clues) (i : Pos) : Clues :=
  let answer_letter := answer i
  let guess_letter := guess i
  let guess_letter_bit := bitOf guess_letter
  let guess_in_answer := guess_letter_bit &&& answer_bits
  let c1 : Clues := { c with in_answer_ := c.in_answer_ ||| guess_in_answer }
  if guess_letter = answer_letter then
    { c1 with match_ := Function.update c1.match_ i answer_letter }
  else if guess_in_answer ≠ 0 then
    { c1 with wrong_ := Function.update c1.wrong_ i (c1.wrong_ i ||| guess_letter_bit) }
  else
    { c1 with wrong_ := fun j => c1.wrong_ j ||| guess_letter_bit }

/-- `WorldleGame::addGuess` (src/main.cpp lines 91-113). -/
def WorldleGame.addGuess (game : WorldleGame) (guess : Word) : WorldleGame :=
  { game with
    clues := positions.foldl (addGuessStep game.answer_ game.answer_bits_ guess) game.clues }

/-- `WorldleGame::addGuesses` (src/main.cpp lines 115-119). -/
def WorldleGame.addGuesses (game : WorldleGame) (guesses : List Word) : WorldleGame :=
  guesses.foldl WorldleGame.addGuess game

/-- `WorldleGame::getCopyWithGuess` (src/main.cpp lines 121-125): copy the
session, apply the guess to the copy, return the copy.  (The source spells the
local copy's type `WordleGame`, an evident misspelling of the class name.) -/
def WorldleGame.getCopyWithGuess (game : WorldleGame) (guess : Word) : WorldleGame :=
  game.addGuess guess

/-- Lift of `Clues::matches` to a game, as used on `WorldleGame` objects. -/
def WorldleGame.matches (game : WorldleGame) (word : Word) : Bool :=
  game.clues.matches word

/-- The fixed seed guess `{17, 14, 0, 19, 4}` (the word `roate`,
src/main.cpp line 174). -/
def kFirstGuess : Word := ![17, 14, 0, 19, 4]

/-- Default word used to totalise the partial indexing operations of the
source (`entries[...]`, `valid_answers.front()`); every claim below only
depends on in-bounds accesses. -/
def kDefaultWord : Word := fun _ => 0

/-- `std::count_if(ws.cbegin(), ws.cend(), [](w){ return game.matches(w); })`. -/
def countIf (game : WorldleGame) (ws : List Word) : Nat :=
  (ws.filter (fun w => game.matches w)).length

/-- The per-answer session of the scoring loop: `WorldleGame game_for_answer(valid_answer);
game_for_answer.addGuesses(best_guesses);` (src/main.cpp lines 190-191). -/
def gameForAnswer (valid_answer : Word) (best_guesses : List Word) : WorldleGame :=
  (WorldleGame.mk' valid_answer).addGuesses best_guesses

/-- The scoring double loop of `runGreedyTrial` (src/main.cpp lines 189-197):
for each still-feasible `valid_answer`, for each guess candidate `entries[i]`,
`scores[i] += count_if(valid_answers, matches of the branched session)`.
The source's `scores` vector is declared empty and never resized (see
`scoresDecl`); this definition models the evidently intended accumulator of
`entries.size()` zero-initialised entries. -/
def codeScores (entries best_guesses valid_answers : List Word) : List Int :=
  valid_answers.foldl
    (fun scores valid_answer =>
      scores.zipWith
        (fun s e =>
          s + (countIf ((gameForAnswer valid_answer best_guesses).getCopyWithGuess e)
                valid_answers : Int))
        entries)
    (List.replicate entries.length 0)

/-- Index returned by `std::min_element(scores.cbegin(), scores.cend())`
(src/main.cpp lines 199-201): the first index holding the minimum value
(the iterator is advanced only on a strictly smaller element). -/
def minElementIdx : List Int → Nat
  | [] => 0
  | [_] => 0
  | v :: w :: rest =>
    let m := minElementIdx (w :: rest)
    if (w :: rest).getD m 0 < v then m + 1 else 0

/-- The `scores` vector exactly as declared at src/main.cpp line 185:
default-constructed, hence empty; it is never resized, and the
`std::fill(scores.begin(), scores.end(), 0)` at line 213 keeps its length. -/
def scoresDecl : List Int := []

/-- Bounds safety of the scoring loop (src/main.cpp lines 192-197 and 199-201):
every access `scores[i]` made for an index `i` in `[0, entries.size())` stays
strictly below `scores.size()`. -/
def scoringAccessSafe (entries : List Word) (scores : List Int) : Prop :=
  ∀ i, i < entries.length → i < scores.length

/-- The mutable state of the narrowing loop of `runGreedyTrial`
(src/main.cpp lines 184-223). -/
structure LoopState where
  trial_game : WorldleGame
  best_guesses : List Word
  valid_answers : List Word
  trial_count : Nat

/-- The state just before the `while` loop (src/main.cpp lines 172-187): the
trial session has been seeded with `kFirstGuess`, the feasible set is the
prefix of `num_answers` entries filtered by the seeded constraints, and the
round counter is `1`. -/
def initLoopState (entries : List Word) (answer_idx num_answers : Nat) : LoopState :=
  let answer := entries.getD answer_idx kDefaultWord
  let trial_game := (WorldleGame.mk' answer).addGuess kFirstGuess
  { trial_game := trial_game
    best_guesses := [kFirstGuess]
    valid_answers := (entries.take num_answers).filter (fun w => trial_game.matches w)
    trial_count := 1 }

/-- One iteration of the narrowing loop (src/main.cpp lines 188-222): score
all guesses, commit the argmin guess, filter the feasible set, bump the
counter. -/
def greedyIter (entries : List Word) (s : LoopState) : LoopState :=
  let scores := codeScores entries s.best_guesses s.valid_answers
  let best_guess := entries.getD (minElementIdx scores) kDefaultWord
  let trial_game := s.trial_game.addGuess best_guess
  { trial_game := trial_game
    best_guesses := s.best_guesses ++ [best_guess]
    valid_answers := s.valid_answers.filter (fun a => trial_game.matches a)
    trial_count := s.trial_count + 1 }

/-- The fuelled `while (valid_answers.size() > 1)` loop; `none` models a run
that does not terminate within `fuel` iterations. -/
def greedyLoop (entries : List Word) : Nat → LoopState → Option LoopState
  | 0, s => if s.valid_answers.length > 1 then none else some s
  | fuel + 1, s =>
    if s.valid_answers.length > 1 then greedyLoop entries fuel (greedyIter entries s)
    else some s

/-- Result of one greedy trial; a failed `assert` is modelled as
`inconsistencyError` (the source's asserts at lines 171, 230 and 231 abort
the process). -/
inductive TrialResult where
  | ok (rounds : Nat)
  | inconsistencyError
  | outOfFuel
deriving DecidableEq

/-- `runGreedyTrial` (src/main.cpp lines 169-233): the initial
`assert(answer_idx < entries.size())`, the seeded narrowing loop, and the two
final asserts `valid_answers.size() == 1` and `valid_answers.front() == answer`
before the round count is returned. -/
def runGreedyTrial (entries : List Word) (answer_idx num_answers fuel : Nat) : TrialResult :=
  if answer_idx < entries.length then
    let answer := entries.getD answer_idx kDefaultWord
    match greedyLoop entries fuel (initLoopState entries answer_idx num_answers) with
    | none => TrialResult.outOfFuel
    | some s =>
      if s.valid_answers.length = 1 then
        if s.valid_answers.getD 0 kDefaultWord = answer then TrialResult.ok s.trial_count
        else TrialResult.inconsistencyError
      else TrialResult.inconsistencyError
  else TrialResult.inconsistencyError

/-- Error raised by `fromString` when its `assert(str.size() == kNumLetters)`
fails (the spec's `MalformedWordError`). -/
inductive WordError where
  | malformed
deriving DecidableEq

/-- `fromString` (src/main.cpp lines 235-242): assert the length is exactly
`kNumLetters`, then map each symbol to `str[i] - 'a'` with no further
validation. -/
def fromString (s : List Char) : Except WordError Word :=
  if s.length = kNumLetters then
    Except.ok (fun i => (Int.ofNat (s.getD i.val 'a').toNat) - 97)
  else Except.error WordError.malformed

/-- Modelled from the claim's words (C10): `encode` fails when the length
differs from `L` or when any symbol does not map to a valid letter code in
`[0, alphabet_size)`; otherwise it returns the word of the letter codes. -/
def specEncode (s : List Char) : Except WordError Word :=
  if s.length = kNumLetters ∧
      (∀ c ∈ s, 0 ≤ (Int.ofNat c.toNat) - 97 ∧ (Int.ofNat c.toNat) - 97 < 26) then
    Except.ok (fun i => (Int.ofNat (s.getD i.val 'a').toNat) - 97)
  else Except.error WordError.malformed

theorem lor_left_comm (a b c : Nat) : a ||| (b ||| c) = b ||| (a ||| c) := by
  rw [← Nat.or_assoc, Nat.or_comm a b, Nat.or_assoc]

theorem lor_self_left (a b : Nat) : a ||| (a ||| b) = a ||| b := by
  rw [← Nat.or_assoc, Nat.or_self]

theorem land_lor_self (x y : Nat) : x &&& (x ||| y) = x := by
  apply Nat.eq_of_testBit_eq
  intro i
  simp only [Nat.testBit_and, Nat.testBit_or]
  cases x.testBit i <;> simp

theorem subset_of_lor_eq {x y : Nat} (h : x ||| y = y) : x &&& y = x := by
  rw [← h, land_lor_self]

theorem land_lor_distrib_left (x a b : Nat) : x &&& (a ||| b) = x &&& a ||| x &&& b := by
  apply Nat.eq_of_testBit_eq
  intro i
  simp only [Nat.testBit_and, Nat.testBit_or]
  cases x.testBit i <;> simp

theorem lor_land_distrib_right (a b m : Nat) : (a ||| b) &&& m = a &&& m ||| b &&& m := by
  apply Nat.eq_of_testBit_eq
  intro i
  simp only [Nat.testBit_and, Nat.testBit_or]
  cases m.testBit i <;> simp

theorem lor_subset {a b m : Nat} (ha : a &&& m = a) (hb : b &&& m = b) :
    (a ||| b) &&& m = a ||| b := by
  rw [lor_land_distrib_right, ha, hb]

theorem land_subset_right (y m : Nat) : (y &&& m) &&& m = y &&& m := by
  rw [Nat.and_assoc, Nat.and_self]

theorem lor_disjoint {x a b : Nat} (ha : x &&& a = 0) (hb : x &&& b = 0) :
    x &&& (a ||| b) = 0 := by
  rw [land_lor_distrib_left, ha, hb, Nat.or_self]

theorem disjoint_of_subset_of_disjoint {a b m : Nat} (ha : a &&& m = a) (hb : b &&& m = 0) :
    a &&& b = 0 := by
  calc a &&& b = (a &&& m) &&& b := by rw [ha]
    _ = a &&& (b &&& m) := by rw [Nat.and_assoc, Nat.and_comm m b]
    _ = a &&& 0 := by rw [hb]
    _ = 0 := Nat.and_zero a

theorem bitOf_eq_pow (l : Letter) : bitOf l = 2 ^ l.toNat := by
  simp [bitOf, Nat.one_shiftLeft]

theorem bitOf_ne_zero (l : Letter) : bitOf l ≠ 0 := by
  rw [bitOf_eq_pow]
  exact (pow_pos (by norm_num) _).ne'

theorem testBit_bitOf (l : Letter) (i : Nat) : (bitOf l).testBit i = decide (l.toNat = i) := by
  rw [bitOf_eq_pow]
  exact Nat.testBit_two_pow

theorem bitOf_and_bitOf {a b : Letter} (h : a.toNat ≠ b.toNat) :
    bitOf a &&& bitOf b = 0 := by
  apply Nat.eq_of_testBit_eq
  intro i
  simp only [Nat.testBit_and, testBit_bitOf, Nat.zero_testBit]
  by_cases ha : a.toNat = i <;> by_cases hb : b.toNat = i <;> simp_all

theorem bitOf_and_cases (l : Letter) (x : Nat) :
    bitOf l &&& x = bitOf l ∨ bitOf l &&& x = 0 := by
  by_cases h : x.testBit l.toNat
  · left
    apply Nat.eq_of_testBit_eq
    intro i
    simp only [Nat.testBit_and, testBit_bitOf]
    by_cases hi : l.toNat = i
    · subst hi; simp [h]
    · simp [hi]
  · right
    apply Nat.eq_of_testBit_eq
    intro i
    simp only [Nat.testBit_and, testBit_bitOf, Nat.zero_testBit]
    by_cases hi : l.toNat = i
    · subst hi; simp [h]
    · simp [hi]

theorem foldl_or_eq (f : Pos → LetterField) (L : List Pos) :
    ∀ x : LetterField, L.foldl (fun acc k => acc ||| f k) x = x ||| orMask f L := by
  induction L with
  | nil => intro x; simp [orMask]
  | cons i L ih =>
    intro x
    simp only [List.foldl_cons, orMask] at ih ⊢
    rw [ih (x ||| f i), ih (0 ||| f i), Nat.zero_or, Nat.or_assoc]

theorem orMask_cons (f : Pos → LetterField) (i : Pos) (L : List Pos) :
    orMask f (i :: L) = f i ||| orMask f L := by
  rw [orMask, List.foldl_cons, foldl_or_eq f L, Nat.zero_or]

theorem orMask_absorb {f : Pos → LetterField} {j : Pos} {L : List Pos} (h : j ∈ L) :
    f j ||| orMask f L = orMask f L := by
  induction L with
  | nil => cases h
  | cons i L ih =>
    rw [orMask_cons]
    rcases List.mem_cons.mp h with h | h
    · subst h; rw [← Nat.or_assoc, Nat.or_self]
    · rw [lor_left_comm, ih h]

theorem orMask_subset {f : Pos → LetterField} {j : Pos} {L : List Pos} (h : j ∈ L) :
    f j &&& orMask f L = f j :=
  subset_of_lor_eq (orMask_absorb h)

theorem orMask_disjoint {x : Nat} {f : Pos → LetterField} {L : List Pos}
    (h : ∀ k ∈ L, x &&& f k = 0) : x &&& orMask f L = 0 := by
  induction L with
  | nil => simp [orMask, Nat.and_zero]
  | cons i L ih =>
    rw [orMask_cons]
    exact lor_disjoint (h i (List.mem_cons_self i L)) (ih fun k hk => h k (List.mem_cons_of_mem i hk))

theorem orMask_land (f : Pos → LetterField) (m : LetterField) (L : List Pos) :
    orMask (fun k => f k &&& m) L = orMask f L &&& m := by
  induction L with
  | nil => simp [orMask, Nat.zero_and]
  | cons i L ih => rw [orMask_cons, orMask_cons, ih, lor_land_distrib_right]

theorem mem_positions (i : Pos) : i ∈ positions := by
  fin_cases i <;> decide

/-- Bit contributed to `positionForbidden[j]` by a guess letter that is in the
answer but misplaced at `j` (the `wrong_[i] |= guess_letter_bit` branch). -/
def stepPresentBit (answer : Word) (answer_bits : LetterField) (guess : Word) (j : Pos) : LetterField :=
  if guess j ≠ answer j ∧ bitOf (guess j) &&& answer_bits ≠ 0 then bitOf (guess j) else 0

/-- Bit contributed to every position's forbidden set by a guess letter absent
from the answer (the global `for (LetterField &letter_field : wrong_)` branch). -/
def stepAbsentBit (answer : Word) (answer_bits : LetterField) (guess : Word) (k : Pos) : LetterField :=
  if guess k ≠ answer k ∧ bitOf (guess k) &&& answer_bits = 0 then bitOf (guess k) else 0

/-- Union over all positions of the globally-eliminated letter bits of a guess. -/
def absentMask (answer : Word) (answer_bits : LetterField) (guess : Word) : LetterField :=
  orMask (stepAbsentBit answer answer_bits guess) positions

theorem addGuessStep_match (answer : Word) (ab : LetterField) (guess : Word)
    (c : Clues) (i j : Pos) :
    (addGuessStep answer ab guess c i).match_ j =
      if j = i ∧ guess j = answer j then answer j else c.match_ j := by
  by_cases hji : j = i
  · subst hji
    by_cases heq : guess j = answer j
    · simp [addGuessStep, heq, Function.update]
    · simp only [addGuessStep]
      split_ifs <;> simp_all [Function.update]
  · simp only [addGuessStep]
    split_ifs <;> simp_all [Function.update]

theorem addGuessStep_wrong (answer : Word) (ab : LetterField) (guess : Word)
    (c : Clues) (i j : Pos) :
    (addGuessStep answer ab guess c i).wrong_ j =
      c.wrong_ j |||
        ((if j = i then stepPresentBit answer ab guess i else 0) |||
          stepAbsentBit answer ab guess i) := by
  by_cases hji : j = i
  · subst hji
    simp only [addGuessStep, stepPresentBit, stepAbsentBit]
    split_ifs <;> simp_all [Function.update, Nat.or_zero, Nat.zero_or]
  · simp only [addGuessStep, stepPresentBit, stepAbsentBit]
    split_ifs <;> simp_all [Function.update, Nat.or_zero, Nat.zero_or]

theorem addGuessStep_in_answer (answer : Word) (ab : LetterField) (guess : Word)
    (c : Clues) (i : Pos) :
    (addGuessStep answer ab guess c i).in_answer_ =
      c.in_answer_ ||| (bitOf (guess i) &&& ab) := by
  simp only [addGuessStep]
  split_ifs <;> rfl

theorem foldl_addGuess_match (answer : Word) (ab : LetterField) (guess : Word)
    (L : List Pos) :
    ∀ (c : Clues) (j : Pos),
      (L.foldl (addGuessStep answer ab guess) c).match_ j =
        if j ∈ L ∧ guess j = answer j then answer j else c.match_ j := by
  induction L with
  | nil => intro c j; simp
  | cons i L ih =>
    intro c j
    rw [List.foldl_cons, ih, addGuessStep_match]
    by_cases h : guess j = answer j <;> by_cases hL : j ∈ L <;> by_cases hi : j = i <;>
      simp_all [List.mem_cons]

theorem foldl_addGuess_wrong (answer : Word) (ab : LetterField) (guess : Word)
    (L : List Pos) :
    ∀ (c : Clues) (j : Pos),
      (L.foldl (addGuessStep answer ab guess) c).wrong_ j =
        c.wrong_ j |||
          ((if j ∈ L then stepPresentBit answer ab guess j else 0) |||
            orMask (stepAbsentBit answer ab guess) L) := by
  induction L with
  | nil => intro c j; simp [orMask, Nat.or_zero]
  | cons i L ih =>
    intro c j
    rw [List.foldl_cons, ih, addGuessStep_wrong, orMask_cons]
    by_cases hi : j = i <;> by_cases hL : j ∈ L <;>
      simp_all [List.mem_cons, Nat.or_zero, Nat.zero_or, Nat.or_assoc, lor_left_comm,
        lor_self_left]

theorem foldl_addGuess_in_answer (answer : Word) (ab : LetterField) (guess : Word)
    (L : List Pos) :
    ∀ c : Clues,
      (L.foldl (addGuessStep answer ab guess) c).in_answer_ =
        c.in_answer_ ||| orMask (fun k => bitOf (guess k) &&& ab) L := by
  induction L with
  | nil => intro c; simp [orMask, Nat.or_zero]
  | cons i L ih =>
    intro c
    rw [List.foldl_cons, ih, addGuessStep_in_answer, orMask_cons, Nat.or_assoc]

theorem cluesEq_of_fields {c d : Clues} (hm : c.match_ = d.match_) (hw : c.wrong_ = d.wrong_)
    (hi : c.in_answer_ = d.in_answer_) : c = d := by
  cases c; cases d; simp_all

/-- Modelled from the claim's words (C1): the per-position case analysis
exactly as stated — exact match sets `positionMatch[i]` only; a present but
misplaced letter adds its bit to `positionForbidden[i]` and to
`requiredPresent`; an absent letter adds its bit to every position's
forbidden set and not to `requiredPresent`. -/
def claimApplyGuess (answer : Word) (answer_bits : LetterField) (guess : Word) (c : Clues) : Clues :=
  { match_ := fun j => if guess j = answer j then guess j else c.match_ j
    wrong_ := fun j =>
      c.wrong_ j |||
        (stepPresentBit answer answer_bits guess j ||| absentMask answer answer_bits guess)
    in_answer_ := c.in_answer_ ||| orMask (stepPresentBit answer answer_bits guess) positions }

/-- The claim's case analysis amended to what the code computes: identical to
`claimApplyGuess` except that `requiredPresent` gains the bit of every guess
letter present in the answer, exactly matched positions included
(`in_answer_ |= guess_letter_bit & answer_bits_` runs before the case split). -/
def amendedApplyGuess (answer : Word) (answer_bits : LetterField) (guess : Word) (c : Clues) : Clues :=
  { match_ := fun j => if guess j = answer j then guess j else c.match_ j
    wrong_ := fun j =>
      c.wrong_ j |||
        (stepPresentBit answer answer_bits guess j ||| absentMask answer answer_bits guess)
    in_answer_ := c.in_answer_ ||| (wordBits guess &&& answer_bits) }

/-- Closed-form characterisation of `WorldleGame::addGuess`. -/
theorem addGuess_clues_eq (game : WorldleGame) (guess : Word) :
    (game.addGuess guess).clues =
      amendedApplyGuess game.answer_ game.answer_bits_ guess game.clues := by
  apply cluesEq_of_fields
  · funext j
    rw [WorldleGame.addGuess, foldl_addGuess_match]
    simp only [amendedApplyGuess, mem_positions, true_and]
    by_cases h : guess j = game.answer_ j <;> simp [h]
  · funext j
    rw [WorldleGame.addGuess, foldl_addGuess_wrong]
    simp [amendedApplyGuess, absentMask, mem_positions]
  · rw [WorldleGame.addGuess, foldl_addGuess_in_answer]
    simp [amendedApplyGuess, wordBits, orMask_land]

theorem matchesGo_iff (c : Clues) (w : Word) (L : List Pos) :
    ∀ acc : LetterField,
      matchesGo c w L acc = true ↔
        ((∀ i ∈ L, (c.match_ i = kUnknownLetter ∨ c.match_ i = w i) ∧
            bitOf (w i) &&& c.wrong_ i = 0) ∧
          c.in_answer_ &&& (acc ||| orMask (fun i => bitOf (w i)) L) = c.in_answer_) := by
  induction L with
  | nil =>
    intro acc
    simp [matchesGo, orMask, Nat.or_zero]
  | cons i L ih =>
    intro acc
    simp only [matchesGo]
    by_cases h1 : c.match_ i ≠ kUnknownLetter ∧ c.match_ i ≠ w i
    · rw [if_pos h1]
      simp only [Bool.false_eq_true, false_iff]
      rintro ⟨hall, -⟩
      obtain ⟨hm, -⟩ := hall i (List.mem_cons_self i L)
      tauto
    · by_cases h2 : bitOf (w i) &&& c.wrong_ i ≠ 0
      · rw [if_neg h1, if_pos h2]
        simp only [Bool.false_eq_true, false_iff]
        rintro ⟨hall, -⟩
        obtain ⟨-, hw⟩ := hall i (List.mem_cons_self i L)
        exact h2 hw
      · rw [if_neg h1, if_neg h2, ih]
        push_neg at h2
        have hpi : (c.match_ i = kUnknownLetter ∨ c.match_ i = w i) ∧
            bitOf (w i) &&& c.wrong_ i = 0 := by
          constructor
          · by_cases hk : c.match_ i = kUnknownLetter
            · exact Or.inl hk
            · exact Or.inr (by push_neg at h1; exact h1 hk)
          · exact h2
        rw [orMask_cons]
        constructor
        · rintro ⟨hall, hin⟩
          refine ⟨List.forall_mem_cons.mpr ⟨hpi, hall⟩, ?_⟩
          rwa [Nat.or_assoc] at hin
        · rintro ⟨hall, hin⟩
          refine ⟨(List.forall_mem_cons.mp hall).2, ?_⟩
          rwa [← Nat.or_assoc] at hin

theorem forall_positions {P : Pos → Prop} : (∀ i ∈ positions, P i) ↔ ∀ i, P i :=
  ⟨fun h i => h i (mem_positions i), fun h i _ => h i⟩

/-- `Clues::matches` returns `true` exactly when every position passes both
per-position checks and `requiredPresent` is a subset of the word's letters. -/
theorem matches_true_iff (c : Clues) (w : Word) :
    c.matches w = true ↔
      ((∀ i, (c.match_ i = kUnknownLetter ∨ c.match_ i = w i) ∧
          bitOf (w i) &&& c.wrong_ i = 0) ∧
        c.in_answer_ &&& wordBits w = c.in_answer_) := by
  rw [Clues.matches, matchesGo_iff, forall_positions, Nat.zero_or]
  rfl

theorem addGuess_answer (game : WorldleGame) (g : Word) :
    (game.addGuess g).answer_ = game.answer_ := rfl

theorem addGuess_answer_bits (game : WorldleGame) (g : Word) :
    (game.addGuess g).answer_bits_ = game.answer_bits_ := rfl

/-- A word over the program's alphabet: each letter code lies in `[0, 26)`. -/
def ValidWord (w : Word) : Prop := ∀ i, 0 ≤ w i ∧ w i < 26

instance (w : Word) : Decidable (ValidWord w) :=
  inferInstanceAs (Decidable (∀ i, 0 ≤ w i ∧ w i < 26))

theorem toNat_ne_of_ne {a b : Letter} (ha : 0 ≤ a) (hb : 0 ≤ b) (hne : a ≠ b) :
    a.toNat ≠ b.toNat := by
  intro h
  apply hne
  rw [← Int.toNat_of_nonneg ha, ← Int.toNat_of_nonneg hb, h]

/-- Invariant tying a session to its hidden answer: the answer fields are those
built by the constructor, a set `positionMatch` always holds the answer's
letter, the answer's letter is never position-forbidden, and `requiredPresent`
stays inside the answer's letter bitset. -/
def SessionInv (A : Word) (game : WorldleGame) : Prop :=
  game.answer_ = A ∧ game.answer_bits_ = wordBits A ∧
    (∀ i, game.clues.match_ i = kUnknownLetter ∨ game.clues.match_ i = A i) ∧
    (∀ i, bitOf (A i) &&& game.clues.wrong_ i = 0) ∧
    game.clues.in_answer_ &&& wordBits A = game.clues.in_answer_

theorem sessionInv_mk (A : Word) : SessionInv A (WorldleGame.mk' A) := by
  refine ⟨rfl, rfl, fun i => Or.inl rfl, fun i => Nat.and_zero _, Nat.zero_and _⟩

theorem sessionInv_addGuess {A : Word} {game : WorldleGame} (g : Word)
    (hA : ValidWord A) (hg : ValidWord g) (h : SessionInv A game) :
    SessionInv A (game.addGuess g) := by
  obtain ⟨hans, hbits, hmatch, hwrong, hin⟩ := h
  refine ⟨hans, hbits, ?_, ?_, ?_⟩
  · intro i
    rw [addGuess_clues_eq]
    simp only [amendedApplyGuess, hans]
    by_cases he : g i = A i
    · rw [if_pos he]
      exact Or.inr he
    · rw [if_neg he]
      exact hmatch i
  · intro i
    rw [addGuess_clues_eq]
    simp only [amendedApplyGuess, hans, hbits]
    refine lor_disjoint (hwrong i) (lor_disjoint ?_ ?_)
    · rw [stepPresentBit]
      split_ifs with hc
      · exact bitOf_and_bitOf
          (toNat_ne_of_ne (hA i).1 (hg i).1 (fun hh => hc.1 (hh.symm ▸ rfl)))
      · exact Nat.and_zero _
    · rw [absentMask]
      apply orMask_disjoint
      intro k _
      rw [stepAbsentBit]
      split_ifs with hc
      · exact disjoint_of_subset_of_disjoint
          (orMask_subset (f := fun i => bitOf (A i)) (mem_positions i)) hc.2
      · exact Nat.and_zero _
  · rw [addGuess_clues_eq]
    simp only [amendedApplyGuess, hans, hbits]
    exact lor_subset hin (land_subset_right _ _)

theorem sessionInv_addGuesses {A : Word} {game : WorldleGame} (gs : List Word)
    (hA : ValidWord A) (hgs : ∀ g ∈ gs, ValidWord g) (h : SessionInv A game) :
    SessionInv A (game.addGuesses gs) := by
  induction gs generalizing game with
  | nil => exact h
  | cons g gs ih =>
    exact ih (fun x hx => hgs x (List.mem_cons_of_mem g hx))
      (sessionInv_addGuess g hA (hgs g (List.mem_cons_self g gs)) h)

theorem matches_of_sessionInv {A : Word} {game : WorldleGame} (h : SessionInv A game) :
    game.matches A = true := by
  obtain ⟨-, -, hmatch, hwrong, hin⟩ := h
  rw [WorldleGame.matches, matches_true_iff]
  exact ⟨fun i => ⟨hmatch i, hwrong i⟩, hin⟩

theorem minElementIdx_lt : ∀ l : List Int, l ≠ [] → minElementIdx l < l.length := by
  intro l
  induction l with
  | nil => intro h; cases h rfl
  | cons v rest ih =>
    intro _
    cases rest with
    | nil => simp [minElementIdx]
    | cons w rest' =>
      simp only [minElementIdx]
      split_ifs
      · have := ih (by simp)
        simpa using Nat.succ_lt_succ this
      · simp

theorem minElementIdx_le : ∀ (l : List Int) (j : Nat), j < l.length →
    l.getD (minElementIdx l) 0 ≤ l.getD j 0 := by
  intro l
  induction l with
  | nil => intro j hj; simp at hj
  | cons v rest ih =>
    intro j hj
    cases rest with
    | nil =>
      cases j with
      | zero => simp [minElementIdx]
      | succ j' => simp at hj
    | cons w rest' =>
      simp only [minElementIdx]
      split_ifs with hlt
      · rw [List.getD_cons_succ]
        cases j with
        | zero => exact le_of_lt (by simpa using hlt)
        | succ j' =>
          rw [List.getD_cons_succ]
          exact ih j' (by simpa using hj)
      · rw [List.getD_cons_zero]
        cases j with
        | zero => rw [List.getD_cons_zero]
        | succ j' =>
          rw [List.getD_cons_succ]
          exact le_trans (not_lt.mp hlt) (ih j' (by simpa using hj))

theorem minElementIdx_first : ∀ (l : List Int) (j : Nat), j < minElementIdx l →
    l.getD (minElementIdx l) 0 < l.getD j 0 := by
  intro l
  induction l with
  | nil => intro j hj; simp [minElementIdx] at hj
  | cons v rest ih =>
    intro j hj
    cases rest with
    | nil => simp [minElementIdx] at hj
    | cons w rest' =>
      simp only [minElementIdx] at hj ⊢
      split_ifs with hlt
      · rw [if_pos hlt] at hj
        rw [List.getD_cons_succ]
        cases j with
        | zero => simpa using hlt
        | succ j' =>
          rw [List.getD_cons_succ]
          exact ih j' (by omega)
      · rw [if_neg hlt] at hj
        omega

theorem foldl_zipWith_length (entries : List Word) (g : Word → Int → Word → Int) :
    ∀ (V : List Word) (s : List Int), s.length = entries.length →
      (V.foldl (fun sc va => sc.zipWith (g va) entries) s).length = entries.length := by
  intro V
  induction V with
  | nil => intro s h; exact h
  | cons va V ih =>
    intro s h
    rw [List.foldl_cons]
    exact ih _ (by rw [List.length_zipWith, h, Nat.min_self])

theorem foldl_score_getD (entries : List Word) (contrib : Word → Word → Int) :
    ∀ (V : List Word) (s : List Int) (i : Nat), s.length = entries.length →
      i < entries.length →
      (V.foldl (fun sc va => sc.zipWith (fun x e => x + contrib va e) entries) s).getD i 0 =
        s.getD i 0 + (V.map (fun va => contrib va (entries.getD i kDefaultWord))).sum := by
  intro V
  induction V with
  | nil => intro s i h hi; simp
  | cons va V ih =>
    intro s i h hi
    have hs : i < s.length := by rw [h]; exact hi
    have hz : i < (s.zipWith (fun x e => x + contrib va e) entries).length := by
      rw [List.length_zipWith, h, Nat.min_self]; exact hi
    rw [List.foldl_cons, ih _ i (by rw [List.length_zipWith, h, Nat.min_self]) hi,
      List.map_cons, List.sum_cons]
    have hzip : (s.zipWith (fun x e => x + contrib va e) entries).getD i 0 =
        s.getD i 0 + contrib va (entries.getD i kDefaultWord) := by
      rw [List.getD_eq_getElem _ _ hz, List.getElem_zipWith,
        List.getD_eq_getElem _ _ hs, List.getD_eq_getElem _ _ hi]
    rw [hzip, add_assoc]

/-- Length of the (intended) scores accumulator: one slot per guess entry. -/
theorem codeScores_length (entries best_guesses valid_answers : List Word) :
    (codeScores entries best_guesses valid_answers).length = entries.length := by
  rw [codeScores]
  exact foldl_zipWith_length entries
    (fun va x e =>
      x + (countIf ((gameForAnswer va best_guesses).getCopyWithGuess e) valid_answers : Int))
    valid_answers _ (List.length_replicate _ _)

/-- The score the amended claim ascribes to a guess `g`: the sum, over every
hypothetical answer `va` still feasible, of the number of feasible answers
matching the session that replays the committed guesses against `va` and then
branches on `g`. -/
def amendedScore (best_guesses valid_answers : List Word) (g : Word) : Int :=
  (valid_answers.map (fun va =>
    (countIf ((gameForAnswer va best_guesses).getCopyWithGuess g) valid_answers : Int))).sum

/-- Modelled from the claim's words (C3): the score of a candidate guess `g`
as `|{a ∈ feasibleSet : branch(g).matches(a)}|`, where `branch(g)` extends the
current trial answer's already-established constraints with `g`. -/
def claimScore (trial_answer : Word) (best_guesses valid_answers : List Word) (g : Word) : Int :=
  (countIf ((gameForAnswer trial_answer best_guesses).getCopyWithGuess g) valid_answers : Int)

/-- Each slot of the scoring accumulator holds the summed-over-feasible-answers
count for its guess. -/
theorem codeScores_getD (entries best_guesses valid_answers : List Word) (i : Nat)
    (hi : i < entries.length) :
    (codeScores entries best_guesses valid_answers).getD i 0 =
      amendedScore best_guesses valid_answers (entries.getD i kDefaultWord) := by
  rw [codeScores, amendedScore]
  rw [foldl_score_getD entries
    (fun va e => (countIf ((gameForAnswer va best_guesses).getCopyWithGuess e)
      valid_answers : Int))
    valid_answers _ i (List.length_replicate _ _) hi]
  rw [List.getD_eq_getElem _ _ (by simpa using hi), List.getElem_replicate, zero_add]

theorem gameEq_of_fields {a b : WorldleGame} (h1 : a.clues = b.clues)
    (h2 : a.answer_ = b.answer_) (h3 : a.answer_bits_ = b.answer_bits_) : a = b := by
  cases a; cases b; simp_all

theorem amendedApplyGuess_idem (A : Word) (ab : LetterField) (g : Word) (c : Clues) :
    amendedApplyGuess A ab g (amendedApplyGuess A ab g c) = amendedApplyGuess A ab g c := by
  apply cluesEq_of_fields
  · funext j
    simp only [amendedApplyGuess]
    split_ifs <;> rfl
  · funext j
    simp only [amendedApplyGuess]
    rw [Nat.or_assoc, Nat.or_self]
  · simp only [amendedApplyGuess]
    rw [Nat.or_assoc, Nat.or_self]

theorem addGuesses_answer (gs : List Word) :
    ∀ game : WorldleGame, (game.addGuesses gs).answer_ = game.answer_ := by
  induction gs with
  | nil => intro game; rfl
  | cons g gs ih =>
    intro game
    rw [WorldleGame.addGuesses, List.foldl_cons]
    exact ih (game.addGuess g)

/-- The session reached from a fresh game for answer `A` after applying the
guesses `gs` in order. -/
def playGuesses (A : Word) (gs : List Word) : WorldleGame :=
  (WorldleGame.mk' A).addGuesses gs

theorem match_inv_general (A : Word) :
    ∀ (gs : List Word) (game : WorldleGame), game.answer_ = A →
      (∀ i, game.clues.match_ i = kUnknownLetter ∨ game.clues.match_ i = A i) →
      (game.addGuesses gs).answer_ = A ∧
        ∀ i, (game.addGuesses gs).clues.match_ i = kUnknownLetter ∨
          (game.addGuesses gs).clues.match_ i = A i := by
  intro gs
  induction gs with
  | nil => intro game h1 h2; exact ⟨h1, h2⟩
  | cons g gs ih =>
    intro game h1 h2
    rw [WorldleGame.addGuesses, List.foldl_cons]
    apply ih (game.addGuess g) h1
    intro i
    rw [addGuess_clues_eq]
    simp only [amendedApplyGuess]
    by_cases he : g i = game.answer_ i
    · rw [if_pos he]
      right
      rw [he, h1]
    · rw [if_neg he]
      exact h2 i

/-- In any reachable session, a set `positionMatch` entry holds the answer's
letter at that position (it is only ever written with `answer_[i]`). -/
theorem playGuesses_match_inv (A : Word) (gs : List Word) :
    (playGuesses A gs).answer_ = A ∧
      ∀ i, (playGuesses A gs).clues.match_ i = kUnknownLetter ∨
        (playGuesses A gs).clues.match_ i = A i :=
  match_inv_general A gs (WorldleGame.mk' A) rfl (fun _ => Or.inl rfl)

theorem length_one_getD {l : List Word} {a : Word} (h1 : l.length = 1)
    (h2 : l.getD 0 kDefaultWord = a) : l = [a] := by
  cases l with
  | nil => simp at h1
  | cons x t =>
    cases t with
    | nil =>
      rw [List.getD_cons_zero] at h2
      rw [h2]
    | cons y t' => simp at h1

/-- Example word `aaaaa` (letter code 0 at every position). -/
def cwA : Word := fun _ => 0

/-- Example word `bbbbb` (letter code 1 at every position). -/
def cwB : Word := fun _ => 1

/-- Example word `ccccc` (letter code 2 at every position). -/
def cwC : Word := fun _ => 2

/-- Concrete two-word dictionary used in counterexamples: neither word shares a
letter with the seed guess, so both survive it and the narrowing loop runs. -/
def exEntries : List Word := [cwB, cwC]

/-- C1 counterexample: for hidden answer `aaaaa` and guess `aaaaa` (every
position an exact match), the code adds the letter's bit to `requiredPresent`
(`in_answer_` becomes 1) while the claimed case analysis, which touches
`requiredPresent` only in the present-but-misplaced case, leaves it 0. -/
theorem claim_C1_counterexample :
    ((WorldleGame.mk' cwA).addGuess cwA).clues.in_answer_ ≠
      (claimApplyGuess cwA (wordBits cwA) cwA Clues.init).in_answer_ := by
  decide

/-- C1 (amended): `addGuess` performs exactly the claimed per-position case
analysis except that `requiredPresent` additionally gains the bit of every
guess letter present in the answer, exactly-matched positions included:
the update is `requiredPresent := requiredPresent ∪ (letters(guess) ∩ answerPresence)`. -/
theorem claim_C1_amended (game : WorldleGame) (guess : Word) :
    (game.addGuess guess).clues =
      amendedApplyGuess game.answer_ game.answer_bits_ guess game.clues :=
  addGuess_clues_eq game guess

theorem bool_eq_false_iff (b : Bool) : b = false ↔ ¬ b = true := by
  cases b <;> simp

/-- C2: `matches` returns `false` iff some position has its `positionMatch` set
and different from the candidate's letter, or the candidate's letter bit lies
in that position's forbidden set, or `requiredPresent` is not a subset of the
candidate's letter bitset; in this embedding `matches` is a pure function of
the constraint state and candidate, so it has no side effect. -/
theorem claim_C2_matches_iff (c : Clues) (w : Word) :
    c.matches w = false ↔
      ((∃ i : Pos, (c.match_ i ≠ kUnknownLetter ∧ c.match_ i ≠ w i) ∨
          bitOf (w i) &&& c.wrong_ i ≠ 0) ∨
        ¬ c.in_answer_ &&& wordBits w = c.in_answer_) := by
  rw [bool_eq_false_iff, matches_true_iff, not_and_or, not_forall]
  apply or_congr
  · constructor
    · rintro ⟨i, hi⟩
      refine ⟨i, ?_⟩
      by_cases h1 : c.match_ i = kUnknownLetter ∨ c.match_ i = w i
      · right
        intro h2
        exact hi ⟨h1, h2⟩
      · left
        push_neg at h1
        exact h1
    · rintro ⟨i, hi⟩
      refine ⟨i, ?_⟩
      rintro ⟨hm, hw⟩
      rcases hi with h | h
      · rcases hm with hm | hm
        · exact h.1 hm
        · exact h.2 hm
      · exact h hw
  · exact Iff.rfl

/-- C4 (code bug): the `scores` vector is declared empty and never resized, so
for any non-empty guess dictionary the scoring loop's very first access
`scores[0]` is already out of bounds — the claimed bounds safety fails. -/
theorem claim_C4_scores_oob :
    scoresDecl.length = 0 ∧ ¬ scoringAccessSafe exEntries scoresDecl := by
  constructor
  · rfl
  · intro h
    exact absurd (h 0 (by decide)) (by decide)

/-- C5: for every hidden answer and every guess sequence applied to a session
constructed from that answer, the answer still matches afterwards — the
constraints derived from the answer itself never exclude it. -/
theorem claim_C5_self_consistency (A : Word) (gs : List Word) (hA : ValidWord A)
    (hgs : ∀ g ∈ gs, ValidWord g) :
    ((WorldleGame.mk' A).addGuesses gs).matches A = true :=
  matches_of_sessionInv (sessionInv_addGuesses gs hA hgs (sessionInv_mk A))

/-- C5 witness: answer `bbbbb` and guess sequence `[roate]`. -/
theorem claim_C5_witness :
    ((WorldleGame.mk' cwB).addGuesses [kFirstGuess]).matches cwB = true :=
  claim_C5_self_consistency cwB [kFirstGuess] (by decide) (by decide)

/-- C7: one further `applyGuess` on any reachable session preserves monotone
growth: a set `positionMatch` entry keeps its value, each `positionForbidden`
bitset only gains bits, and `requiredPresent` only gains bits. -/
theorem claim_C7_monotone (A : Word) (gs : List Word) (g : Word) :
    (∀ i, (playGuesses A gs).clues.match_ i ≠ kUnknownLetter →
      ((playGuesses A gs).addGuess g).clues.match_ i = (playGuesses A gs).clues.match_ i) ∧
    (∀ i, (playGuesses A gs).clues.wrong_ i &&&
        ((playGuesses A gs).addGuess g).clues.wrong_ i = (playGuesses A gs).clues.wrong_ i) ∧
    ((playGuesses A gs).clues.in_answer_ &&&
        ((playGuesses A gs).addGuess g).clues.in_answer_ =
      (playGuesses A gs).clues.in_answer_) := by
  obtain ⟨hans, hinv⟩ := playGuesses_match_inv A gs
  refine ⟨?_, ?_, ?_⟩
  · intro i hset
    rw [addGuess_clues_eq]
    simp only [amendedApplyGuess]
    by_cases he : g i = (playGuesses A gs).answer_ i
    · rw [if_pos he, he, hans]
      rcases hinv i with h | h
      · exact absurd h hset
      · exact h.symm
    · rw [if_neg he]
  · intro i
    rw [addGuess_clues_eq]
    exact land_lor_self _ _
  · rw [addGuess_clues_eq]
    exact land_lor_self _ _

/-- C7 witness: answer `bbbbb`, guess list `[bbbbb]` (all matches set), then a
further guess `ccccc`. -/
theorem claim_C7_witness :
    ((playGuesses cwB [cwB]).addGuess cwC).clues.match_ 0 =
        (playGuesses cwB [cwB]).clues.match_ 0 ∧
      (playGuesses cwB [cwB]).clues.wrong_ 0 &&&
          ((playGuesses cwB [cwB]).addGuess cwC).clues.wrong_ 0 =
        (playGuesses cwB [cwB]).clues.wrong_ 0 ∧
      (playGuesses cwB [cwB]).clues.in_answer_ &&&
          ((playGuesses cwB [cwB]).addGuess cwC).clues.in_answer_ =
        (playGuesses cwB [cwB]).clues.in_answer_ :=
  ⟨(claim_C7_monotone cwB [cwB] cwC).1 0 (by decide),
    (claim_C7_monotone cwB [cwB] cwC).2.1 0,
    (claim_C7_monotone cwB [cwB] cwC).2.2⟩

/-- C8: applying the same guess twice in succession yields exactly the same
session state — in particular the same `ConstraintSet` — as applying it once. -/
theorem claim_C8_idempotent (game : WorldleGame) (guess : Word) :
    (game.addGuess guess).addGuess guess = game.addGuess guess := by
  apply gameEq_of_fields
  · rw [addGuess_clues_eq (game.addGuess guess) guess, addGuess_answer, addGuess_answer_bits,
      addGuess_clues_eq game guess]
    exact amendedApplyGuess_idem _ _ _ _
  · rfl
  · rfl

/-- C9: `getCopyWithGuess` returns the session equal to the original with the
guess applied, and the answer state of the branch equals the original's; the
original session value is untouched, which in this pure embedding holds by
construction (the function does not modify its argument). -/
theorem claim_C9_branch (game : WorldleGame) (guess : Word) :
    game.getCopyWithGuess guess = game.addGuess guess ∧
      (game.getCopyWithGuess guess).answer_ = game.answer_ ∧
      (game.getCopyWithGuess guess).answer_bits_ = game.answer_bits_ :=
  ⟨rfl, rfl, rfl⟩

/-- C3 counterexample: with dictionary `[bbbbb, ccccc]`, trial answer `bbbbb`
(index 0) and both words answers, the first narrowing round is entered
(feasible set has size 2) and the score the code computes for guess `bbbbb` is
2 — the sum over both hypothetical feasible answers — while the claimed score,
the single count against the trial answer's constraint branch, is 1. -/
theorem claim_C3_counterexample :
    (initLoopState exEntries 0 2).valid_answers.length = 2 ∧
      (codeScores exEntries (initLoopState exEntries 0 2).best_guesses
          (initLoopState exEntries 0 2).valid_answers).getD 0 0 = 2 ∧
      claimScore (exEntries.getD 0 kDefaultWord)
          (initLoopState exEntries 0 2).best_guesses
          (initLoopState exEntries 0 2).valid_answers (exEntries.getD 0 kDefaultWord) = 1 ∧
      (codeScores exEntries (initLoopState exEntries 0 2).best_guesses
          (initLoopState exEntries 0 2).valid_answers).getD 0 0 ≠
        claimScore (exEntries.getD 0 kDefaultWord)
          (initLoopState exEntries 0 2).best_guesses
          (initLoopState exEntries 0 2).valid_answers (exEntries.getD 0 kDefaultWord) := by
  refine ⟨by decide, by decide, by decide, by decide⟩

/-- C3 (amended): in every round the score of guess `entries[i]` equals the sum
over each still-feasible hypothetical answer `va` of
`|{a ∈ feasibleSet : branch_va(g).matches(a)}|`, where `branch_va` replays the
committed guesses against `va` and then adds `g`; the committed guess is
`entries[minElementIdx scores]`, and `minElementIdx` picks the first index
attaining the minimum (deterministic first-occurrence tie-break). -/
theorem claim_C3_amended (entries best_guesses valid_answers : List Word) :
    (∀ i, i < entries.length →
      (codeScores entries best_guesses valid_answers).getD i 0 =
        amendedScore best_guesses valid_answers (entries.getD i kDefaultWord)) ∧
    (∀ (tg : WorldleGame) (n : Nat),
      (greedyIter entries
          { trial_game := tg, best_guesses := best_guesses,
            valid_answers := valid_answers, trial_count := n }).best_guesses =
        best_guesses ++
          [entries.getD (minElementIdx (codeScores entries best_guesses valid_answers))
            kDefaultWord]) ∧
    (entries ≠ [] →
      minElementIdx (codeScores entries best_guesses valid_answers) < entries.length ∧
      (∀ j, j < entries.length →
        (codeScores entries best_guesses valid_answers).getD
            (minElementIdx (codeScores entries best_guesses valid_answers)) 0 ≤
          (codeScores entries best_guesses valid_answers).getD j 0) ∧
      ∀ j, j < minElementIdx (codeScores entries best_guesses valid_answers) →
        (codeScores entries best_guesses valid_answers).getD
            (minElementIdx (codeScores entries best_guesses valid_answers)) 0 <
          (codeScores entries best_guesses valid_answers).getD j 0) := by
  refine ⟨fun i hi => codeScores_getD entries best_guesses valid_answers i hi,
    fun tg n => rfl, fun hne => ?_⟩
  have hlen := codeScores_length entries best_guesses valid_answers
  have hne' : codeScores entries best_guesses valid_answers ≠ [] := by
    intro h
    rw [h] at hlen
    exact hne (List.length_eq_zero.mp hlen.symm)
  refine ⟨?_, fun j hj => minElementIdx_le _ j (by rw [hlen]; exact hj),
    fun j hj => minElementIdx_first _ j hj⟩
  rw [← hlen]
  exact minElementIdx_lt _ hne'

/-- C3 witness: the score characterisation and the argmin bound instantiated at
a concrete singleton round state. -/
theorem claim_C3_amended_witness :
    (codeScores [cwB] [] [cwB]).getD 0 0 =
        amendedScore [] [cwB] (List.getD [cwB] 0 kDefaultWord) ∧
      minElementIdx (codeScores [cwB] [] [cwB]) < List.length [cwB] :=
  ⟨(claim_C3_amended [cwB] [] [cwB]).1 0 (by decide),
    ((claim_C3_amended [cwB] [] [cwB]).2.2 (by simp)).1⟩

/-- C6: `runGreedyTrial` returns its round count only when the narrowing loop
ends with the feasible set equal to the singleton of the trial answer; if the
loop ends with the feasible set empty or not containing the trial answer, the
final asserts fail (fatal internal-consistency error) instead of a count being
returned. -/
theorem claim_C6_consistency (entries : List Word) (answer_idx num_answers fuel : Nat) :
    (∀ (n : Nat) (s : LoopState),
      runGreedyTrial entries answer_idx num_answers fuel = TrialResult.ok n →
      greedyLoop entries fuel (initLoopState entries answer_idx num_answers) = some s →
      s.valid_answers = [entries.getD answer_idx kDefaultWord] ∧ n = s.trial_count) ∧
    (∀ s : LoopState,
      greedyLoop entries fuel (initLoopState entries answer_idx num_answers) = some s →
      (s.valid_answers = [] ∨ entries.getD answer_idx kDefaultWord ∉ s.valid_answers) →
      runGreedyTrial entries answer_idx num_answers fuel =
        TrialResult.inconsistencyError) := by
  constructor
  · intro n s hok hloop
    by_cases hidx : answer_idx < entries.length
    · simp only [runGreedyTrial, hidx, if_true, hloop] at hok
      by_cases h1 : s.valid_answers.length = 1
      · rw [if_pos h1] at hok
        by_cases h2 : s.valid_answers.getD 0 kDefaultWord = entries.getD answer_idx kDefaultWord
        · rw [if_pos h2] at hok
          injection hok with hn
          exact ⟨length_one_getD h1 h2, hn.symm⟩
        · rw [if_neg h2] at hok
          exact TrialResult.noConfusion hok
      · rw [if_neg h1] at hok
        exact TrialResult.noConfusion hok
    · simp only [runGreedyTrial, hidx, if_false] at hok
      exact TrialResult.noConfusion hok
  · intro s hloop hbad
    by_cases hidx : answer_idx < entries.length
    · simp only [runGreedyTrial, hidx, if_true, hloop]
      by_cases h1 : s.valid_answers.length = 1
      · rw [if_pos h1]
        by_cases h2 : s.valid_answers.getD 0 kDefaultWord = entries.getD answer_idx kDefaultWord
        · exfalso
          have heq := length_one_getD h1 h2
          rcases hbad with hb | hb
          · rw [hb] at heq
            exact List.noConfusion heq
          · rw [heq] at hb
            exact hb (List.mem_singleton_self _)
        · rw [if_neg h2]
      · rw [if_neg h1]
    · simp only [runGreedyTrial, hidx, if_false]

/-- C6 witness: a run over the one-word dictionary `[bbbbb]` succeeds in one
round, and the theorem yields the final feasible set `[answer]`. -/
theorem claim_C6_witness :
    (initLoopState [cwB] 0 1).valid_answers = [List.getD [cwB] 0 kDefaultWord] ∧
      1 = (initLoopState [cwB] 0 1).trial_count :=
  (claim_C6_consistency [cwB] 0 1 0).1 1 (initLoopState [cwB] 0 1) (by decide) rfl

/-- Five uppercase symbols: length is correct but every symbol is outside the
lowercase alphabet (`'A' - 'a' = -32`). -/
def exBadChars : List Char := ['A', 'A', 'A', 'A', 'A']

/-- Five lowercase symbols `abcde`, all within the alphabet. -/
def exGoodChars : List Char := ['a', 'b', 'c', 'd', 'e']

/-- The word `fromString` produces for `exGoodChars`: codes `0,1,2,3,4`. -/
def exGoodWord : Word := fun i => (Int.ofNat (exGoodChars.getD i.val 'a').toNat) - 97

/-- C10 counterexample: a five-symbol input entirely outside the alphabet is
accepted by `fromString` (which validates only the length), while the claimed
behaviour rejects any symbol not mapping to a letter code in `[0, 26)`. -/
theorem claim_C10_counterexample :
    fromString exBadChars ≠ Except.error WordError.malformed ∧
      specEncode exBadChars = Except.error WordError.malformed := by
  constructor
  · rw [fromString, if_pos (by decide)]
    intro h
    exact Except.noConfusion h
  · rw [specEncode, if_neg (by decide)]

/-- C10 (amended): `fromString` fails with `MalformedWordError` exactly when
the input length differs from `kNumLetters`; it performs no alphabet
validation, mapping each symbol to `symbol - 'a'` even when that code falls
outside `[0, 26)`. -/
theorem claim_C10_amended (s : List Char) :
    (fromString s = Except.error WordError.malformed ↔ s.length ≠ kNumLetters) ∧
      (s.length = kNumLetters →
        fromString s = Except.ok (fun i => (Int.ofNat (s.getD i.val 'a').toNat) - 97)) := by
  constructor
  · constructor
    · intro h hlen
      rw [fromString, if_pos hlen] at h
      exact Except.noConfusion h
    · intro hlen
      rw [fromString, if_neg hlen]
  · intro hlen
    rw [fromString, if_pos hlen]

/-- C10 witness: a well-formed lowercase input is encoded to its letter codes. -/
theorem claim_C10_amended_witness :
    fromString exGoodChars = Except.ok exGoodWord :=
  (claim_C10_amended exGoodChars).2 (by decide)
